import Mathlib

/-!
Shallow embedding of `src/highlight.py` (flaxsearch/highlighter).

Text is modelled as `List Char` (Python 2 `str`, one byte per char, ASCII
semantics for `\w`, `\s`, `.lower()` and `.rstrip()`).  Python exceptions are
modelled with an explicit `PyExc` type: fallible steps return
`Except PyExc _`, and mutations that happen before an exception is raised are
kept (the pair `state × Except PyExc Unit` returns the partially mutated
state, as Python does).
-/

namespace Highlighter

/-- Python exceptions relevant to `highlight.py`: `IndexError` (raised by the
matching loop and by out-of-range list indexing), `TypeError` (arity
mismatch on a call), and any other exception a caller-supplied predicate may
raise. -/
inductive PyExc where
  | indexError
  | typeError
  | other (msg : String)
deriving DecidableEq, Repr

/-- `WINDOW = 50` from `highlight.py`. -/
def WINDOW : Nat := 50

/-- Python 2 `\s` / `str.rstrip()` whitespace class (ASCII). -/
def isPySpace (c : Char) : Bool :=
  c = ' ' || c = '\t' || c = '\n' || c = '\r' || c = '\x0b' || c = '\x0c'

/-- Python 2 `\w` (ASCII): letters, digits, underscore. -/
def isPyWord (c : Char) : Bool :=
  ('a' ≤ c && c ≤ 'z') || ('A' ≤ c && c ≤ 'Z') || ('0' ≤ c && c ≤ '9') || c = '_'

/-- The character class `[\w'\-]` of the word alternative of `chunk_re`. -/
def isChunkWord (c : Char) : Bool :=
  isPyWord c || c = '\'' || c = '-'

/-- The character class `[^\w'\-\s]` of the punctuation alternative. -/
def isChunkPunct (c : Char) : Bool :=
  !(isChunkWord c) && !(isPySpace c)

/-- Python 2 `\d` (ASCII digits). -/
def isPyDigit (c : Char) : Bool :=
  '0' ≤ c && c ≤ '9'

/-- Length of the maximal prefix of `cs` whose characters satisfy `p`. -/
def runLen (p : Char → Bool) (cs : List Char) : Nat :=
  (cs.takeWhile p).length

/-- Alternative 1 of `chunk_re`, `<\w+[^>]*>`: a `<`, at least one word
character, then (after backtracking) everything up to and including the first
later `>`.  Returns the matched length. -/
def altOpenTag : List Char → Option Nat
  | [] => none
  | c :: rest =>
    if c = '<' then
      let w := runLen isPyWord rest
      if w = 0 then none
      else
        let rest2 := rest.drop w
        let m := runLen (fun d => !(d = '>')) rest2
        if (rest2.drop m).head? = some '>' then some (1 + w + m + 1) else none
    else none

/-- Alternative 2 of `chunk_re`, `</\w+>`: the maximal word run after `</`
must be nonempty and immediately followed by `>`. -/
def altCloseTag : List Char → Option Nat
  | c1 :: c2 :: rest =>
    if c1 = '<' ∧ c2 = '/' then
      let w := runLen isPyWord rest
      if w = 0 then none
      else if (rest.drop w).head? = some '>' then some (2 + w + 1) else none
    else none
  | _ => none

/-- `\d{1,3}\.`: the maximal digit run must have length 1..3 (greedy `{1,3}`
cannot backtrack into a digit where `\.` is required) and be followed by a
dot.  Returns the consumed length (digits plus the dot). -/
def digits13Dot (cs : List Char) : Option Nat :=
  let d := runLen isPyDigit cs
  if 1 ≤ d ∧ d ≤ 3 then
    if (cs.drop d).head? = some '.' then some (d + 1) else none
  else none

/-- Final `\d{1,3}` of the IP alternative: greedily takes up to three digits
(nothing after it inside the alternative constrains it). -/
def digits13 (cs : List Char) : Option Nat :=
  let d := min 3 (runLen isPyDigit cs)
  if d = 0 then none else some d

/-- Alternative 3 of `chunk_re`, `\d{1,3}\.\d{1,3}\.\d{1,3}\.\d{1,3}`. -/
def altIP (cs : List Char) : Option Nat :=
  match digits13Dot cs with
  | none => none
  | some a =>
    match digits13Dot (cs.drop a) with
    | none => none
    | some b =>
      match digits13Dot (cs.drop (a + b)) with
      | none => none
      | some c =>
        match digits13 (cs.drop (a + b + c)) with
        | none => none
        | some d => some (a + b + c + d)

/-- `\d{k}`: exactly `k` digits. -/
def digitsExact (k : Nat) (cs : List Char) : Option Nat :=
  if (cs.take k).length = k ∧ (cs.take k).all isPyDigit then some k else none

/-- A literal character. -/
def litChar (c : Char) (cs : List Char) : Option Nat :=
  if cs.head? = some c then some 1 else none

/-- Alternative 4 of `chunk_re`, `\d{3}-\d{2}-\d{4}` (SSN shape). -/
def altSSN (cs : List Char) : Option Nat :=
  match digitsExact 3 cs with
  | none => none
  | some a =>
    match litChar '-' (cs.drop a) with
    | none => none
    | some b =>
      match digitsExact 2 (cs.drop (a + b)) with
      | none => none
      | some c =>
        match litChar '-' (cs.drop (a + b + c)) with
        | none => none
        | some d =>
          match digitsExact 4 (cs.drop (a + b + c + d)) with
          | none => none
          | some e => some (a + b + c + d + e)

/-- Alternative 5 of `chunk_re`, `[\w'\-]+`: maximal nonempty run. -/
def altWord (cs : List Char) : Option Nat :=
  let n := runLen isChunkWord cs
  if n = 0 then none else some n

/-- Alternative 6 of `chunk_re`, `[^\w'\-\s]+`: maximal nonempty run. -/
def altPunct (cs : List Char) : Option Nat :=
  let n := runLen isChunkPunct cs
  if n = 0 then none else some n

/-- The body of `chunk_re` at one position: alternatives tried left to right,
first match wins (Python `|` semantics). -/
def chunkAlt (cs : List Char) : Option Nat :=
  match altOpenTag cs with
  | some n => some n
  | none =>
  match altCloseTag cs with
  | some n => some n
  | none =>
  match altIP cs with
  | some n => some n
  | none =>
  match altSSN cs with
  | some n => some n
  | none =>
  match altWord cs with
  | some n => some n
  | none => altPunct cs

/-- Full match length of `chunk_re` at one position: the chosen alternative
plus its greedy trailing `\s*`.  `0` means no match at this position. -/
def chunkMatchLen (cs : List Char) : Nat :=
  match chunkAlt cs with
  | some n => n + runLen isPySpace (cs.drop n)
  | none => 0

/-- `chunk_re.findall`: scan left to right; on a match consume it, otherwise
advance one character (Python `re` scanning).  Fuel is the remaining length;
each step consumes at least one character. -/
def findallAux : Nat → List Char → List (List Char)
  | 0, _ => []
  | _ + 1, [] => []
  | fuel + 1, c :: rest =>
    let n := chunkMatchLen (c :: rest)
    if n = 0 then findallAux fuel rest
    else (c :: rest).take n :: findallAux fuel ((c :: rest).drop n)

/-- `chunk_re.findall(text)`. -/
def chunkFindall (cs : List Char) : List (List Char) :=
  findallAux cs.length cs

/-- The token list of `makeSample`:
`[w for w in chunk_re.findall(text) if w[0] != '<']`. -/
def sampleWords (text : List Char) : List (List Char) :=
  (chunkFindall text).filter (fun w => !(w.head? = some '<'))

/-- The token list of `highlight`: all chunks, minus those starting with
`<` when `no_tags` is set. -/
def highlightTokens (text : List Char) (noTags : Bool) : List (List Char) :=
  if noTags then (chunkFindall text).filter (fun w => !(w.head? = some '<'))
  else chunkFindall text

/-- ASCII `str.lower()` on one character (Python 2 byte string semantics). -/
def pyLowerChar (c : Char) : Char :=
  if 'A' ≤ c ∧ c ≤ 'Z' then Char.ofNat (c.toNat + 32) else c

/-- `str.rstrip()`: remove trailing whitespace. -/
def pyRstrip (cs : List Char) : List Char :=
  (cs.reverse.dropWhile isPySpace).reverse

/-- `Highlighter._normalise_text` with a working stemmer `stem` (the
`snowballstemmer` path is a black box; the claims instantiate `stem` with the
identity):  `self.stem.stemWord(term.rstrip().lower())`. -/
def normaliseText (stem : List Char → List Char) (term : List Char) : List Char :=
  stem ((pyRstrip term).map pyLowerChar)

/-! ### The `NoStem` class (constructor path when `language` is absent)

`NoStem` declares `def stemWord(s): return s` — a method WITHOUT a `self`
parameter.  We keep the declared one-parameter body and model the Python
bound-method call explicitly: `self.stem.stemWord(x)` prepends the receiver
to the argument list, and a Python call whose argument count differs from
the declared parameter count raises `TypeError`. -/

/-- A Python value as far as `NoStem.stemWord` is concerned: a string or the
`NoStem` instance itself. -/
inductive PyVal where
  | str (s : List Char)
  | noStemInst
deriving DecidableEq

/-- The declared body of `NoStem.stemWord`: one parameter `s`, returns `s`. -/
def NoStem.stemWordBody (s : PyVal) : PyVal := s

/-- Calling a Python function declared with exactly one parameter: an
argument list of any other length raises `TypeError`. -/
def pyCall1 (f : PyVal → PyVal) : List PyVal → Except PyExc PyVal
  | [a] => .ok (f a)
  | _ => .error .typeError

/-- The bound-method call `self.stem.stemWord(x)` on a `NoStem` instance:
the receiver is passed as the first argument, so the one-parameter function
receives two arguments. -/
def NoStem.stemWordCall (x : List Char) : Except PyExc PyVal :=
  pyCall1 NoStem.stemWordBody [PyVal.noStemInst, PyVal.str x]

/-- `_normalise_text` when the highlighter was built with no language
(`self.stem = NoStem()`): `self.stem.stemWord(term.rstrip().lower())`. -/
def normaliseTextNoStem (term : List Char) : Except PyExc PyVal :=
  NoStem.stemWordCall ((pyRstrip term).map pyLowerChar)

/-! ### Match units and the matching loop shared by `makeSample` and
`highlight` -/

/-- One element of a match specification: a literal normalised term, or a
caller-supplied predicate (`types.FunctionType` / `types.LambdaType` in the
source); a predicate may raise. -/
inductive MatchUnit where
  | lit (s : List Char)
  | pred (f : List Char → Except PyExc Bool)

/-- Evaluating one unit against one normalised term: predicates are applied,
literals compared (`terms[n+offset] == term`). -/
def evalUnit (u : MatchUnit) (t : List Char) : Except PyExc Bool :=
  match u with
  | .lit s => .ok (t == s)
  | .pred f => f t

/-- A specification made only of literal units. -/
def litOnly : List MatchUnit → Bool
  | [] => true
  | .lit _ :: rest => litOnly rest
  | .pred _ :: _ => false

/-- The first `for offset, term in enumerate(q)` loop of the `try` block at
position `n` (`i = n + offset`): reading `terms[i]` out of range raises
`IndexError`; a non-matching unit raises `IndexError`; a predicate's own
exception propagates.  `.ok ()` means the whole specification matched. -/
def matchLoop (terms : List (List Char)) : Nat → List MatchUnit → Except PyExc Unit
  | _, [] => .ok ()
  | i, u :: rest =>
    match terms[i]? with
    | none => .error .indexError
    | some t =>
      match evalUnit u t with
      | .error e => .error e
      | .ok true => matchLoop terms (i + 1) rest
      | .ok false => .error .indexError

/-! ### `makeSample`: marking phase -/

/-- The mutable `scores` and `highlight` arrays of `makeSample`. -/
structure MarkState where
  scores : List Nat
  highlight : List Bool
deriving DecidableEq, Repr

/-- `scores[i] += v`: out-of-range indexing raises `IndexError`. -/
def addScore (sc : List Nat) (i v : Nat) : Except PyExc (List Nat) :=
  match sc[i]? with
  | some x => .ok (sc.set i (x + v))
  | none => .error .indexError

/-- `highlight[i] = True`: out-of-range indexing raises `IndexError`. -/
def setFlag (hl : List Bool) (i : Nat) : Except PyExc (List Bool) :=
  match hl[i]? with
  | some _ => .ok (hl.set i true)
  | none => .error .indexError

/-- The second `for offset, term in enumerate(q)` loop:
`scores[n+offset] += WINDOW; highlight[n+offset] = True`.  On an exception
the partially mutated state is kept. -/
def scoreUnits (st : MarkState) (n : Nat) : Nat → List MatchUnit → MarkState × Except PyExc Unit
  | _, [] => (st, .ok ())
  | offset, _ :: rest =>
    match addScore st.scores (n + offset) WINDOW with
    | .error e => (st, .error e)
    | .ok sc =>
      match setFlag st.highlight (n + offset) with
      | .error e => ({ st with scores := sc }, .error e)
      | .ok hl => scoreUnits { scores := sc, highlight := hl } n (offset + 1) rest

/-- Left taper, iterated over `w ∈ xrange(1, WINDOW)`:
`l = n - w; if l < 0: break; scores[l] += WINDOW - w`.  `n < w` is the
Python test `l < 0`. -/
def leftTaper (sc : List Nat) (n : Nat) : List Nat → List Nat × Except PyExc Unit
  | [] => (sc, .ok ())
  | w :: ws =>
    if n < w then (sc, .ok ())
    else
      match addScore sc (n - w) (WINDOW - w) with
      | .error e => (sc, .error e)
      | .ok sc' => leftTaper sc' n ws

/-- Right taper, iterated over `w ∈ xrange(1, WINDOW)`:
`r = n + offset + w; if r == lenwords: break; scores[r] += WINDOW - w`.
`offset` is the loop variable left over from the scoring loop, i.e.
`len(q) - 1` for a nonempty specification. -/
def rightTaper (sc : List Nat) (lenwords n offset : Nat) : List Nat → List Nat × Except PyExc Unit
  | [] => (sc, .ok ())
  | w :: ws =>
    if n + offset + w = lenwords then (sc, .ok ())
    else
      match addScore sc (n + offset + w) (WINDOW - w) with
      | .error e => (sc, .error e)
      | .ok sc' => rightTaper sc' lenwords n offset ws

/-- `xrange(1, WINDOW)`. -/
def taperRange : List Nat := List.range' 1 (WINDOW - 1)

/-- The whole `try` body of `makeSample` for one position `n` and one
specification `q`: the read-only matching loop, then (on a match) the score
loop and both tapers.  `.ok ()` in the second component means the
specification matched and all writes succeeded (the `break` to the next
word); `.error e` is the exception raised inside the `try` (with the state
as mutated so far). -/
def trySpecSample (terms : List (List Char)) (st : MarkState) (n : Nat)
    (q : List MatchUnit) : MarkState × Except PyExc Unit :=
  match matchLoop terms n q with
  | .error e => (st, .error e)
  | .ok () =>
    match scoreUnits st n 0 q with
    | (st1, .error e) => (st1, .error e)
    | (st1, .ok ()) =>
      match leftTaper st1.scores n taperRange with
      | (sc2, .error e) => ({ st1 with scores := sc2 }, .error e)
      | (sc2, .ok ()) =>
        match rightTaper sc2 terms.length n (q.length - 1) taperRange with
        | (sc3, .error e) => ({ st1 with scores := sc3 }, .error e)
        | (sc3, .ok ()) => ({ st1 with scores := sc3 }, .ok ())

/-- The `for q in query` loop of `makeSample` at position `n`: an
`IndexError` from the `try` body is caught (`except IndexError: pass`) and
the next specification is tried, a match breaks out of the loop, and any
other exception propagates. -/
def sampleSpecLoop (terms : List (List Char)) (st : MarkState) (n : Nat) :
    List (List MatchUnit) → Except PyExc MarkState
  | [] => .ok st
  | q :: rest =>
    match trySpecSample terms st n q with
    | (st', .ok ()) => .ok st'
    | (st', .error .indexError) => sampleSpecLoop terms st' n rest
    | (_, .error e) => .error e

/-- The `for n in xrange(lenwords)` loop of `makeSample`'s marking phase. -/
def samplePosLoop (terms : List (List Char)) (query : List (List MatchUnit)) :
    MarkState → List Nat → Except PyExc MarkState
  | st, [] => .ok st
  | st, n :: ns =>
    match sampleSpecLoop terms st n query with
    | .error e => .error e
    | .ok st' => samplePosLoop terms query st' ns

/-- The complete marking phase of `makeSample`: fresh zero score and false
highlight arrays, then the position loop. -/
def markSample (terms : List (List Char)) (query : List (List MatchUnit)) :
    Except PyExc MarkState :=
  samplePosLoop terms query
    { scores := List.replicate terms.length 0,
      highlight := List.replicate terms.length false }
    (List.range terms.length)

/-! ### `makeSample`: selection phase -/

/-- `max(scores)` (Python `max` of a nonempty list; `0` placed for the empty
list, which `makeSample` rules out via its early return). -/
def maxScore (sc : List Nat) : Nat := sc.foldr max 0

/-- The order in which the selection loop considers positions:
`for s in xrange(max(scores), -1, -1)` over the scoreboard, where
`scoreboard[s]` lists (via `setdefault(...).append`) the positions with
score `s` in ascending position order; missing scores are skipped
(`has_key`), i.e. contribute an empty block. -/
def selOrder (sc : List Nat) : List Nat :=
  ((List.range (maxScore sc + 1)).reverse).flatMap
    (fun s => (List.range sc.length).filter (fun n => sc.getD n 0 = s))

/-- The selection loop body over the consideration order:
`charlen += len(words[n]) + 1; if charlen >= maxlen: raise StopIteration;
selected[n] = True`. -/
def selectLoop (words : List (List Char)) (maxlen : Nat) :
    List Nat → Nat → List Bool → List Bool
  | [], _, sel => sel
  | n :: rest, charlen, sel =>
    let c := charlen + (words.getD n []).length + 1
    if maxlen ≤ c then sel
    else selectLoop words maxlen rest c (sel.set n true)

/-- The whole selection phase of `makeSample`. -/
def makeSelection (words : List (List Char)) (sc : List Nat) (maxlen : Nat) :
    List Bool :=
  selectLoop words maxlen (selOrder sc) 0 (List.replicate words.length false)

/-! ### `makeSample`: sample reconstruction -/

/-- The `# create sample` loop: selected tokens are emitted (wrapped in
`hl` markers when highlighted); leaving a selected run emits `"... "`. -/
def buildSample (hl0 hl1 : List Char) :
    List (List Char) → List Bool → List Bool → Bool → List Char
  | w :: ws, s :: ss, h :: hs, inPhrase =>
    if s then
      (if h then hl0 ++ w ++ hl1 else w) ++ buildSample hl0 hl1 ws ss hs true
    else if inPhrase then
      ('.' :: '.' :: '.' :: ' ' :: []) ++ buildSample hl0 hl1 ws ss hs false
    else buildSample hl0 hl1 ws ss hs inPhrase
  | _, _, _, _ => []

/-- `Highlighter.makeSample(text, query, maxlen, hl)` with a working stemmer
`stem`.  Empty token list: the original text is returned unchanged.  A
non-`IndexError` exception escaping the marking phase is the call's error. -/
def makeSample (stem : List Char → List Char) (text : List Char)
    (query : List (List MatchUnit)) (maxlen : Nat) (hl0 hl1 : List Char) :
    Except PyExc (List Char) :=
  let words := sampleWords text
  let terms := words.map (normaliseText stem)
  if words.length = 0 then .ok text
  else
    match markSample terms query with
    | .error e => .error e
    | .ok st =>
      let selected := makeSelection words st.scores maxlen
      .ok (buildSample hl0 hl1 words selected st.highlight false)

/-! ### `highlight` -/

/-- The flag-setting loop of `highlight`'s `try` block:
`highlight[n+offset] = True` for each offset of the specification. -/
def setFlags (hl : List Bool) (n : Nat) : Nat → List MatchUnit → List Bool × Except PyExc Unit
  | _, [] => (hl, .ok ())
  | offset, _ :: rest =>
    match setFlag hl (n + offset) with
    | .error e => (hl, .error e)
    | .ok hl' => setFlags hl' n (offset + 1) rest

/-- The `try` body of `highlight` for one position and one specification:
the matching loop, then flag setting. -/
def trySpecHl (terms : List (List Char)) (hl : List Bool) (n : Nat)
    (q : List MatchUnit) : List Bool × Except PyExc Unit :=
  match matchLoop terms n q with
  | .error e => (hl, .error e)
  | .ok () => setFlags hl n 0 q

/-- The `for q in query` loop of `highlight` at position `n`.  Unlike
`makeSample` there is NO `break`: after a successful match the remaining
specifications are still tried and may set further flags.  `IndexError` is
caught per specification; other exceptions propagate. -/
def hlSpecLoop (terms : List (List Char)) (hl : List Bool) (n : Nat) :
    List (List MatchUnit) → Except PyExc (List Bool)
  | [] => .ok hl
  | q :: rest =>
    match trySpecHl terms hl n q with
    | (hl', .ok ()) => hlSpecLoop terms hl' n rest
    | (hl', .error .indexError) => hlSpecLoop terms hl' n rest
    | (_, .error e) => .error e

/-- The position loop of `highlight`'s marking phase. -/
def hlPosLoop (terms : List (List Char)) (query : List (List MatchUnit)) :
    List Bool → List Nat → Except PyExc (List Bool)
  | hl, [] => .ok hl
  | hl, n :: ns =>
    match hlSpecLoop terms hl n query with
    | .error e => .error e
    | .ok hl' => hlPosLoop terms query hl' ns

/-- The complete marking phase of `highlight`. -/
def markHighlight (terms : List (List Char)) (query : List (List MatchUnit)) :
    Except PyExc (List Bool) :=
  hlPosLoop terms query (List.replicate terms.length false)
    (List.range terms.length)

/-- `highlight`'s output loop: every token in order, wrapped in the markers
where flagged. -/
def buildHighlight (hl0 hl1 : List Char) :
    List (List Char) → List Bool → List Char
  | w :: ws, h :: hs =>
    (if h then hl0 ++ w ++ hl1 else w) ++ buildHighlight hl0 hl1 ws hs
  | _, _ => []

/-- `Highlighter.highlight(text, query, hl, no_tags)` with a working stemmer
`stem`. -/
def highlight (stem : List Char → List Char) (text : List Char)
    (query : List (List MatchUnit)) (hl0 hl1 : List Char) (noTags : Bool) :
    Except PyExc (List Char) :=
  let words := highlightTokens text noTags
  let terms := words.map (normaliseText stem)
  match markHighlight terms query with
  | .error e => .error e
  | .ok flags => .ok (buildHighlight hl0 hl1 words flags)

/-! ### Spec-side model for the first-match claim

The specification describes a first-match policy for BOTH operations.  The
following marker follows the spec's words for `highlight`: at each position
the specifications are tried in order, and once one matches the rest are
skipped. -/

/-- Modelled from the spec (§4.4 first-match policy, as claimed for
`highlight`): the spec loop breaks after the first matching specification. -/
def hlSpecLoopFirstMatch (terms : List (List Char)) (hl : List Bool) (n : Nat) :
    List (List MatchUnit) → Except PyExc (List Bool)
  | [] => .ok hl
  | q :: rest =>
    match trySpecHl terms hl n q with
    | (hl', .ok ()) => .ok hl'
    | (hl', .error .indexError) => hlSpecLoopFirstMatch terms hl' n rest
    | (_, .error e) => .error e

/-- Modelled from the spec: the marking phase of `highlight` under the
spec's first-match policy. -/
def markHighlightFirstMatch (terms : List (List Char))
    (query : List (List MatchUnit)) : Except PyExc (List Bool) :=
  go (List.replicate terms.length false) (List.range terms.length)
where
  go : List Bool → List Nat → Except PyExc (List Bool)
    | hl, [] => .ok hl
    | hl, n :: ns =>
      match hlSpecLoopFirstMatch terms hl n query with
      | .error e => .error e
      | .ok hl' => go hl' ns

/-! ### Character accounting for the budget claim -/

/-- `len(words[n]) + 1` summed over the selected positions. -/
def selSum : List Bool → List (List Char) → Nat
  | s :: ss, w :: ws => (if s then w.length + 1 else 0) + selSum ss ws
  | _, _ => 0

/-- The terms fed into `makeSample`'s matcher for a given text. -/
def sampleTerms (stem : List Char → List Char) (text : List Char) :
    List (List Char) :=
  (sampleWords text).map (normaliseText stem)

/-- The terms fed into `highlight`'s matcher for a given text. -/
def hlTerms (stem : List Char → List Char) (text : List Char) (noTags : Bool) :
    List (List Char) :=
  (highlightTokens text noTags).map (normaliseText stem)

end Highlighter

namespace Highlighter

/-! ## Theorems about the claims -/

/-! ### Tokenizer lemmas (claim C4) -/

theorem runLen_cons_pos {p : Char → Bool} {c : Char} (rest : List Char)
    (h : p c = true) : 1 ≤ runLen p (c :: rest) := by
  simp [runLen, List.takeWhile_cons, h]

theorem drop_runLen (p : Char → Bool) (l : List Char) :
    l.drop (runLen p l) = l.dropWhile p := by
  induction l with
  | nil => rfl
  | cons c rest ih =>
    by_cases h : p c
    · simp [runLen, List.takeWhile_cons, List.dropWhile_cons, h] at ih ⊢
      exact ih
    · simp [runLen, List.takeWhile_cons, List.dropWhile_cons, h]

theorem head_dropWhile_nospace (p : Char → Bool) (l : List Char) :
    ∀ c, (l.dropWhile p).head? = some c → p c = false := by
  induction l with
  | nil => intro c h; simp at h
  | cons d rest ih =>
    intro c h
    by_cases hd : p d
    · rw [List.dropWhile_cons_of_pos hd] at h
      exact ih c h
    · rw [List.dropWhile_cons_of_neg hd] at h
      simp at h
      rw [← h]
      exact Bool.not_eq_true _ ▸ (Bool.eq_false_iff.mpr hd)

/-- Every alternative of `chunk_re` consumes at least one character. -/
theorem chunkAlt_pos {cs : List Char} {n : Nat} (h : chunkAlt cs = some n) :
    1 ≤ n := by
  have hOpen : ∀ m, altOpenTag cs = some m → 1 ≤ m := by
    intro m hm
    cases cs with
    | nil => simp [altOpenTag] at hm
    | cons c rest =>
      simp only [altOpenTag] at hm
      split at hm
      · split at hm
        · simp at hm
        · split at hm
          · simp at hm; omega
          · simp at hm
      · simp at hm
  have hClose : ∀ m, altCloseTag cs = some m → 1 ≤ m := by
    intro m hm
    match cs with
    | [] => simp [altCloseTag] at hm
    | [c] => simp [altCloseTag] at hm
    | c1 :: c2 :: rest =>
      simp only [altCloseTag] at hm
      split at hm
      · split at hm
        · simp at hm
        · split at hm
          · simp at hm; omega
          · simp at hm
      · simp at hm
  have hD13 : ∀ l m, digits13Dot l = some m → 1 ≤ m := by
    intro l m hm
    simp only [digits13Dot] at hm
    split at hm
    · split at hm
      · simp at hm; omega
      · simp at hm
    · simp at hm
  have hIP : ∀ m, altIP cs = some m → 1 ≤ m := by
    intro m hm
    simp only [altIP] at hm
    split at hm
    · simp at hm
    · rename_i a ha
      split at hm
      · simp at hm
      · split at hm
        · simp at hm
        · split at hm
          · simp at hm
          · simp at hm
            have := hD13 _ _ ha
            omega
  have hSSN : ∀ m, altSSN cs = some m → 1 ≤ m := by
    intro m hm
    simp only [altSSN] at hm
    split at hm
    · simp at hm
    · rename_i a ha
      split at hm
      · simp at hm
      · split at hm
        · simp at hm
        · split at hm
          · simp at hm
          · split at hm
            · simp at hm
            · simp only [digitsExact] at ha
              split at ha
              · simp at ha hm
                omega
              · simp at ha
  have hWord : ∀ m, altWord cs = some m → 1 ≤ m := by
    intro m hm
    simp only [altWord] at hm
    split at hm
    · simp at hm
    · simp at hm; omega
  have hPunct : ∀ m, altPunct cs = some m → 1 ≤ m := by
    intro m hm
    simp only [altPunct] at hm
    split at hm
    · simp at hm
    · simp at hm; omega
  simp only [chunkAlt] at h
  split at h
  · exact hOpen n (by simp_all)
  · split at h
    · exact hClose n (by simp_all)
    · split at h
      · exact hIP n (by simp_all)
      · split at h
        · exact hSSN n (by simp_all)
        · split at h
          · exact hWord n (by simp_all)
          · exact hPunct n h

/-- Progress: at a non-whitespace character some alternative matches (the
word and punctuation runs jointly cover every non-space character). -/
theorem chunkAlt_isSome {c : Char} (rest : List Char)
    (h : isPySpace c = false) : (chunkAlt (c :: rest)).isSome := by
  have hcover : (altWord (c :: rest)).isSome ∨ (altPunct (c :: rest)).isSome := by
    by_cases hw : isChunkWord c
    · left
      have := @runLen_cons_pos isChunkWord c rest hw
      simp only [altWord]
      split <;> simp_all
    · right
      have hw' : isChunkWord c = false := Bool.eq_false_iff.mpr hw
      have hp : isChunkPunct c = true := by
        simp [isChunkPunct, hw', h]
      have := @runLen_cons_pos isChunkPunct c rest hp
      simp only [altPunct]
      split <;> simp_all
  simp only [chunkAlt]
  split
  · simp
  · split
    · simp
    · split
      · simp
      · split
        · simp
        · split
          · simp
          · rcases hcover with hw | hp
            · simp_all
            · exact hp

/-- At a non-whitespace character `chunk_re` matches a nonempty chunk. -/
theorem chunkMatchLen_pos {c : Char} (rest : List Char)
    (h : isPySpace c = false) : 1 ≤ chunkMatchLen (c :: rest) := by
  have hs := chunkAlt_isSome rest h
  simp only [chunkMatchLen]
  split
  · rename_i k hk
    have := chunkAlt_pos hk
    omega
  · simp_all

/-- After a matched chunk (its trailing `\s*` included) the remaining text
does not start with whitespace. -/
theorem chunkMatchLen_rest_nospace (cs : List Char)
    (hpos : 1 ≤ chunkMatchLen cs) :
    ∀ c, ((cs.drop (chunkMatchLen cs)).head? = some c) → isPySpace c = false := by
  intro c hc
  cases h : chunkAlt cs with
  | none =>
    simp only [chunkMatchLen, h] at hpos
    exact absurd hpos (by omega)
  | some k =>
    simp only [chunkMatchLen, h] at hc
    rw [← List.drop_drop, drop_runLen] at hc
    exact head_dropWhile_nospace _ _ c hc

theorem findallAux_flatten (fuel : Nat) :
    ∀ cs : List Char, cs.length ≤ fuel →
      (∀ c, cs.head? = some c → isPySpace c = false) →
      (findallAux fuel cs).flatten = cs := by
  induction fuel with
  | zero =>
    intro cs hf _
    have : cs = [] := List.eq_nil_of_length_eq_zero (Nat.le_zero.mp hf)
    subst this
    rfl
  | succ fuel ih =>
    intro cs hf hhead
    cases cs with
    | nil => rfl
    | cons c rest =>
      have hc : isPySpace c = false := hhead c rfl
      have hpos : 1 ≤ chunkMatchLen (c :: rest) := chunkMatchLen_pos rest hc
      simp only [findallAux]
      rw [if_neg (by omega)]
      simp only [List.flatten_cons]
      have hlen : ((c :: rest).drop (chunkMatchLen (c :: rest))).length ≤ fuel := by
        rw [List.length_drop]
        simp only [List.length_cons] at hf ⊢
        omega
      rw [ih _ hlen (chunkMatchLen_rest_nospace _ hpos)]
      exact List.take_append_drop _ _

/-- **C4, counterexample.**  Whitespace is one of the recognized character
classes, yet for the text `" a"` (a space, then a word character) the
unfiltered token sequence is `["a"]`: `re.findall` skips the unmatched
leading space, so the concatenation of all chunks is `"a"`, not the
original text. -/
theorem tokenizer_roundtrip_fails_leading_space :
    (∀ c ∈ " a".data, isPySpace c = true ∨ isChunkWord c = true) ∧
    (chunkFindall " a".data).flatten = "a".data ∧
    "a".data ≠ " a".data := by
  exact ⟨by decide, rfl, by decide⟩

/-- **C4, amended.**  Concatenating every chunk of the unfiltered token
sequence reproduces the original text exactly for every text that does not
begin with whitespace (every chunk consumes its trailing whitespace, so
only an unmatched leading whitespace run is ever dropped). -/
theorem tokenizer_roundtrip (cs : List Char)
    (h : ∀ c, cs.head? = some c → isPySpace c = false) :
    (chunkFindall cs).flatten = cs :=
  findallAux_flatten cs.length cs le_rfl h

/-- Witness for the amended C4 theorem: round-trip on `"a <b>c"`. -/
theorem tokenizer_roundtrip_witness :
    (chunkFindall "a <b>c".data).flatten = "a <b>c".data :=
  tokenizer_roundtrip "a <b>c".data (by decide)

/-- **C5.**  For the text `"a b c d e"` and the single one-unit
specification `["b"]`, with an identity stemmer, `makeSample`'s scoring pass
gives token `b` the score `WINDOW = 50`, tokens `a` and `c` the score
`WINDOW - 1`, and each further token a score decreasing by `1` per position
of distance from the match, the taper stopping at the ends of the token
sequence: the score vector is `[49, 50, 49, 48, 47]` (and only `b` is
highlighted). -/
theorem single_literal_match_scoring :
    WINDOW = 50 ∧
    markSample (sampleTerms id "a b c d e".data) [[.lit "b".data]] =
      .ok { scores := [WINDOW - 1, WINDOW, WINDOW - 1, WINDOW - 2, WINDOW - 3],
            highlight := [false, true, false, false, false] } := by
  exact ⟨rfl, rfl⟩

/-- **C2.**  The claim says `_normalise_text` with no language behaves as an
identity stemmer and raises no error.  In the code, `NoStem.stemWord` is
declared without a `self` parameter, so the bound call
`self.stem.stemWord(...)` passes two arguments to a one-parameter function
and every call raises `TypeError`; the lower-cased, right-stripped string
the claim expects (`"hello"` for input `"Hello "`) is computed but the
stemming call then fails. -/
theorem noStem_normalise_raises_typeError :
    (∀ t : List Char, normaliseTextNoStem t = .error .typeError) ∧
    (pyRstrip "Hello ".data).map pyLowerChar = "hello".data := by
  exact ⟨fun t => rfl, by decide⟩

/-! ### Matching-loop lemmas (claims C8, C10) -/

/-- The matching loop succeeds iff every unit of the specification is
in range and accepts its normalised term. -/
theorem matchLoop_ok_iff (terms : List (List Char)) :
    ∀ (q : List MatchUnit) (n : Nat),
      matchLoop terms n q = .ok () ↔
        ∀ o, (ho : o < q.length) → ∃ t, terms[n + o]? = some t ∧
          evalUnit q[o] t = .ok true := by
  intro q
  induction q with
  | nil =>
    intro n
    simp [matchLoop]
  | cons u rest ih =>
    intro n
    constructor
    · intro h o ho
      cases hg : terms[n]? with
      | none => simp [matchLoop, hg] at h
      | some t =>
        cases he : evalUnit u t with
        | error e => simp [matchLoop, hg, he] at h
        | ok b =>
          cases b with
          | false => simp [matchLoop, hg, he] at h
          | true =>
            replace h : matchLoop terms (n + 1) rest = .ok () := by
              simpa [matchLoop, hg, he] using h
            cases o with
            | zero => exact ⟨t, by simpa using hg, by simpa using he⟩
            | succ o' =>
              obtain ⟨t', hg', he'⟩ := (ih (n + 1)).mp h o' (by
                simp only [List.length_cons] at ho
                omega)
              refine ⟨t', ?_, ?_⟩
              · rw [show n + (o' + 1) = n + 1 + o' by omega]
                exact hg'
              · simpa using he'
    · intro h
      obtain ⟨t, hg, he⟩ := h 0 (by simp)
      simp only [Nat.add_zero] at hg
      simp only [List.getElem_cons_zero] at he
      simp only [matchLoop, hg, he]
      apply (ih (n + 1)).mpr
      intro o ho
      obtain ⟨t', hg', he'⟩ := h (o + 1) (by simp only [List.length_cons]; omega)
      refine ⟨t', ?_, ?_⟩
      · rw [show n + 1 + o = n + (o + 1) by omega]
        exact hg'
      · simpa using he'

/-- For a specification made only of literals, the matching loop either
succeeds or raises exactly `IndexError` (no other exception is possible). -/
theorem matchLoop_litOnly (terms : List (List Char)) :
    ∀ (q : List MatchUnit) (n : Nat), litOnly q = true →
      matchLoop terms n q = .ok () ∨ matchLoop terms n q = .error .indexError := by
  intro q
  induction q with
  | nil => intro n _; left; rfl
  | cons u rest ih =>
    intro n hq
    cases u with
    | pred f => simp [litOnly] at hq
    | lit s =>
      simp only [litOnly] at hq
      cases hg : terms[n]? with
      | none =>
        right
        simp [matchLoop, hg]
      | some t =>
        cases htb : (t == s) with
        | false =>
          right
          simp [matchLoop, evalUnit, hg, htb]
        | true =>
          have hred : matchLoop terms n (MatchUnit.lit s :: rest) =
              matchLoop terms (n + 1) rest := by
            simp [matchLoop, evalUnit, hg, htb]
          rw [hred]
          exact ih (n + 1) hq

/-- A caller-supplied predicate that raises `IndexError` on every term. -/
def raiseIndex : MatchUnit := .pred (fun _ => .error .indexError)

/-- A caller-supplied predicate that raises an exception other than
`IndexError` on every term. -/
def raiseBoom : MatchUnit := .pred (fun _ => .error (.other "boom"))

/-- **C1, counterexample.**  The claim asserts the first-match policy for
BOTH `makeSample` and `highlight`.  In `highlight` the specification loop
has no `break`: for text `"a b"` and the query `[["a"], ["a","b"]]`, the
first specification already matches at position 0, yet the second
specification still runs and sets the flag of position 1, so the code
produces `[true, true]` where the claimed first-match policy (the
spec-modelled marker) produces `[true, false]`. -/
theorem highlight_secondSpec_sets_flags :
    markHighlight (hlTerms id "a b".data true)
        [[.lit "a".data], [.lit "a".data, .lit "b".data]] = .ok [true, true] ∧
    markHighlightFirstMatch (hlTerms id "a b".data true)
        [[.lit "a".data], [.lit "a".data, .lit "b".data]] = .ok [true, false] :=
  ⟨rfl, rfl⟩

/-- **C1, amended.**  In `makeSample`, once a specification matches at a
position (and its score/taper writes succeed), the remaining specifications
at that position are skipped.  In `highlight` there is no such skip: after
a successful match the loop continues with the remaining specifications,
and each later matching specification sets its own flags (for `"a b"` with
`[["a"], ["a","b"]]` the second specification flags position 1 as well). -/
theorem firstMatch_makeSample_not_highlight :
    (∀ (terms : List (List Char)) (st : MarkState) (n : Nat) (q : List MatchUnit)
        (rest : List (List MatchUnit)),
        (trySpecSample terms st n q).2 = .ok () →
        sampleSpecLoop terms st n (q :: rest) = .ok (trySpecSample terms st n q).1) ∧
    (∀ (terms : List (List Char)) (hl : List Bool) (n : Nat) (q : List MatchUnit)
        (rest : List (List MatchUnit)),
        (trySpecHl terms hl n q).2 = .ok () →
        hlSpecLoop terms hl n (q :: rest) =
          hlSpecLoop terms (trySpecHl terms hl n q).1 n rest) ∧
    markHighlight (hlTerms id "a b".data true)
        [[.lit "a".data], [.lit "a".data, .lit "b".data]] = .ok [true, true] := by
  refine ⟨?_, ?_, rfl⟩
  · intro terms st n q rest h
    cases h' : trySpecSample terms st n q with
    | mk st' r =>
      rw [h'] at h
      simp only at h
      subst h
      simp only [sampleSpecLoop, h']
  · intro terms hl n q rest h
    cases h' : trySpecHl terms hl n q with
    | mk hl' r =>
      rw [h'] at h
      simp only at h
      subst h
      simp only [hlSpecLoop, h']

/-- Witness for the amended C1 theorem at a concrete input: with terms
`["a"]` and query `[["a"], ["x"]]`, the `makeSample` spec loop stops after
the first (matching) specification. -/
theorem firstMatch_makeSample_witness :
    sampleSpecLoop ["a".data] { scores := [0], highlight := [false] } 0
        [[.lit "a".data], [.lit "x".data]] =
      .ok (trySpecSample ["a".data] { scores := [0], highlight := [false] } 0
            [.lit "a".data]).1 :=
  firstMatch_makeSample_not_highlight.1 ["a".data]
    { scores := [0], highlight := [false] } 0 [.lit "a".data] [[.lit "x".data]] rfl

/-- **C3, counterexample.**  The claim says a predicate's exception
propagates out of `makeSample` for EVERY exception type.  A predicate that
raises `IndexError` is caught by the per-position `except IndexError`
handler and treated as a non-match: the call returns normally (the sample
`"a"`, unhighlighted) instead of propagating. -/
theorem predicate_indexError_swallowed :
    makeSample id "a".data [[raiseIndex]] 100 "<b>".data "</b>".data =
      .ok "a".data := rfl

/-- **C3, amended.**  A predicate exception other than `IndexError`
propagates out of `makeSample` and `highlight` as the call's fatal error
(through the specification loop and the position loop); an `IndexError`
raised by a predicate is caught by the per-position handler and treated as
a per-position non-match. -/
theorem predicate_exception_propagation :
    (∀ (terms : List (List Char)) (st : MarkState) (n : Nat) (q : List MatchUnit)
        (rest : List (List MatchUnit)) (e : PyExc),
        (trySpecSample terms st n q).2 = .error e → e ≠ .indexError →
        sampleSpecLoop terms st n (q :: rest) = .error e) ∧
    (∀ (terms : List (List Char)) (hl : List Bool) (n : Nat) (q : List MatchUnit)
        (rest : List (List MatchUnit)) (e : PyExc),
        (trySpecHl terms hl n q).2 = .error e → e ≠ .indexError →
        hlSpecLoop terms hl n (q :: rest) = .error e) ∧
    (∀ (terms : List (List Char)) (query : List (List MatchUnit)) (st : MarkState)
        (n : Nat) (ns : List Nat) (e : PyExc),
        sampleSpecLoop terms st n query = .error e →
        samplePosLoop terms query st (n :: ns) = .error e) ∧
    makeSample id "a".data [[raiseBoom]] 100 "<b>".data "</b>".data =
      .error (.other "boom") ∧
    highlight id "a".data [[raiseBoom]] "<b>".data "</b>".data true =
      .error (.other "boom") := by
  refine ⟨?_, ?_, ?_, rfl, rfl⟩
  · intro terms st n q rest e h hne
    cases h' : trySpecSample terms st n q with
    | mk st' r =>
      rw [h'] at h
      simp only at h
      subst h
      cases e with
      | indexError => exact absurd rfl hne
      | typeError => simp only [sampleSpecLoop, h']
      | other m => simp only [sampleSpecLoop, h']
  · intro terms hl n q rest e h hne
    cases h' : trySpecHl terms hl n q with
    | mk hl' r =>
      rw [h'] at h
      simp only at h
      subst h
      cases e with
      | indexError => exact absurd rfl hne
      | typeError => simp only [hlSpecLoop, h']
      | other m => simp only [hlSpecLoop, h']
  · intro terms query st n ns e h
    simp only [samplePosLoop, h]

/-- Witness for the amended C3 theorem at a concrete input: a predicate
raising `other "boom"` makes the specification loop error out. -/
theorem predicate_exception_propagation_witness :
    sampleSpecLoop ["a".data] { scores := [0], highlight := [false] } 0
        [[raiseBoom]] = .error (.other "boom") :=
  predicate_exception_propagation.1 ["a".data]
    { scores := [0], highlight := [false] } 0 [raiseBoom] [] (.other "boom")
    rfl (by decide)

/-- **C8.**  (1) A specification `q` matches at `n` iff every offset `o`
is in range and unit `q[o]` accepts normalised term `n + o` (predicate
returns true, literal compares equal).  (2) For literal-only
specifications the matching loop only ever produces a match or the caught
`IndexError` — running past the end is a normal non-match, never another
error.  (3) A nonempty specification that would run past the end of the
token sequence never matches.  (4)–(5) Phrase atomicity: `[new, found,
land]` flags exactly a run of three consecutive matching tokens in
`"new found land"` and matches nowhere in `"new land found"`. -/
theorem match_characterisation :
    (∀ (terms : List (List Char)) (n : Nat) (q : List MatchUnit),
        matchLoop terms n q = .ok () ↔
          ∀ o, (ho : o < q.length) → ∃ t, terms[n + o]? = some t ∧
            evalUnit q[o] t = .ok true) ∧
    (∀ (terms : List (List Char)) (n : Nat) (q : List MatchUnit),
        litOnly q = true →
        matchLoop terms n q = .ok () ∨ matchLoop terms n q = .error .indexError) ∧
    (∀ (terms : List (List Char)) (n : Nat) (q : List MatchUnit),
        q ≠ [] → terms.length < n + q.length → matchLoop terms n q ≠ .ok ()) ∧
    markHighlight (hlTerms id "new found land".data true)
        [[.lit "new".data, .lit "found".data, .lit "land".data]] =
      .ok [true, true, true] ∧
    markHighlight (hlTerms id "new land found".data true)
        [[.lit "new".data, .lit "found".data, .lit "land".data]] =
      .ok [false, false, false] := by
  refine ⟨fun terms n q => matchLoop_ok_iff terms q n,
    fun terms n q => matchLoop_litOnly terms q n, ?_, rfl, rfl⟩
  intro terms n q hne hlen hok
  have hq1 : 1 ≤ q.length := List.length_pos.mpr hne
  obtain ⟨t, hg, -⟩ :=
    (matchLoop_ok_iff terms q n).mp hok (q.length - 1) (by omega)
  have hlt : n + (q.length - 1) < terms.length := by
    have := List.getElem?_eq_some_iff.mp hg
    exact this.1
  omega

/-- Witness for C8 at a concrete input: with terms `["a"]`, the literal
specification `["b"]` either matches or raises the caught `IndexError`
(here: the latter). -/
theorem match_characterisation_witness :
    matchLoop ["a".data] 0 [.lit "b".data] = .ok () ∨
    matchLoop ["a".data] 0 [.lit "b".data] = .error .indexError :=
  match_characterisation.2.1 ["a".data] 0 [.lit "b".data] rfl

/-! ### Selection-phase lemmas (claims C6, C7) -/

theorem mem_le_maxScore {sc : List Nat} {x : Nat} (hx : x ∈ sc) :
    x ≤ maxScore sc := by
  induction sc with
  | nil => simp at hx
  | cons y ys ih =>
    rcases List.mem_cons.mp hx with h | h
    · subst h
      exact le_max_left _ _
    · exact le_trans (ih h) (le_max_right _ _)

/-- Every position below the length appears in the selection order, and
nothing else does. -/
theorem selOrder_mem (sc : List Nat) (n : Nat) :
    n ∈ selOrder sc ↔ n < sc.length := by
  constructor
  · intro h
    obtain ⟨s, -, hn⟩ := List.mem_flatMap.mp h
    exact List.mem_range.mp (List.mem_filter.mp hn).1
  · intro h
    apply List.mem_flatMap.mpr
    refine ⟨sc.getD n 0, ?_, ?_⟩
    · apply List.mem_reverse.mpr
      apply List.mem_range.mpr
      have hmem : sc.getD n 0 ∈ sc := by
        rw [List.getD_eq_getElem?_getD, List.getElem?_eq_getElem h]
        exact List.getElem_mem h
      exact Nat.lt_succ_of_le (mem_le_maxScore hmem)
    · exact List.mem_filter.mpr ⟨List.mem_range.mpr h, by simp⟩

/-- No position is considered twice. -/
theorem selOrder_nodup (sc : List Nat) : (selOrder sc).Nodup := by
  apply List.nodup_flatMap.mpr
  constructor
  · intro s _
    exact (List.nodup_range _).filter _
  · apply List.Pairwise.imp_of_mem ?_
      ((List.nodup_reverse.mpr (List.nodup_range _)) : _)
    intro a b _ _ hab
    apply List.disjoint_left.mpr
    intro n hna hnb
    have ha := (List.mem_filter.mp hna).2
    have hb := (List.mem_filter.mp hnb).2
    simp only [decide_eq_true_eq] at ha hb
    exact hab (ha.symm.trans hb)

/-- The selection order is strictly descending in score value, and within a
score value ascending in position. -/
theorem selOrder_pairwise (sc : List Nat) :
    (selOrder sc).Pairwise (fun a b =>
      sc.getD b 0 < sc.getD a 0 ∨ (sc.getD a 0 = sc.getD b 0 ∧ a < b)) := by
  apply List.pairwise_flatMap.mpr
  constructor
  · intro s _
    refine List.pairwise_filter.mpr ?_
    refine (List.pairwise_lt_range sc.length).imp ?_
    intro a b hab ha hb
    exact Or.inr ⟨ha.trans hb.symm, hab⟩
  · apply List.pairwise_reverse.mpr
    refine (List.pairwise_lt_range (maxScore sc + 1)).imp ?_
    intro a b hab x hx y hy
    have hxb := (List.mem_filter.mp hx).2
    have hya := (List.mem_filter.mp hy).2
    simp only [decide_eq_true_eq] at hxb hya
    exact Or.inl (by rw [hxb, hya]; exact hab)

theorem selSum_set_true :
    ∀ (sel : List Bool) (ws : List (List Char)) (n : Nat),
      n < sel.length → sel.length = ws.length → sel.getD n false = false →
      selSum (sel.set n true) ws = selSum sel ws + ((ws.getD n []).length + 1) := by
  intro sel
  induction sel with
  | nil =>
    intro ws n hn
    simp at hn
  | cons s ss ih =>
    intro ws n hn hlen hf
    cases ws with
    | nil => simp at hlen
    | cons w wsr =>
      cases n with
      | zero =>
        simp only [List.getD_cons_zero] at hf
        subst hf
        simp only [List.set_cons_zero, selSum, List.getD_cons_zero]
        simp
        omega
      | succ m =>
        simp only [List.getD_cons_succ] at hf
        simp only [List.set_cons_succ, selSum, List.getD_cons_succ]
        rw [ih wsr m (by simpa using hn) (by simpa using hlen) hf]
        omega

theorem selSum_replicate (ws : List (List Char)) :
    selSum (List.replicate ws.length false) ws = 0 := by
  induction ws with
  | nil => rfl
  | cons w wsr ih =>
    simpa [List.replicate, selSum] using ih

theorem getD_replicate_false (k n : Nat) :
    (List.replicate k false).getD n false = false := by
  rw [List.getD_eq_getElem?_getD, List.getElem?_replicate]
  split <;> rfl

/-- Invariant of the selection loop: if the character counter equals the
accounted sum of the already selected tokens and is still under the budget,
it stays strictly under the budget. -/
theorem selectLoop_sum (ws : List (List Char)) (maxlen : Nat) :
    ∀ (order : List Nat) (charlen : Nat) (sel : List Bool),
      sel.length = ws.length →
      selSum sel ws = charlen →
      charlen < maxlen →
      (∀ n ∈ order, n < ws.length ∧ sel.getD n false = false) →
      order.Nodup →
      selSum (selectLoop ws maxlen order charlen sel) ws < maxlen := by
  intro order
  induction order with
  | nil =>
    intro charlen sel _ hsum hlt _ _
    simpa [selectLoop, hsum] using hlt
  | cons n rest ih =>
    intro charlen sel hlen hsum hlt hmem hnd
    have hn : n < ws.length := (hmem n (List.mem_cons_self _ _)).1
    have hf : sel.getD n false = false := (hmem n (List.mem_cons_self _ _)).2
    simp only [selectLoop]
    split
    · exact hsum ▸ hlt
    · rename_i hc
      apply ih (charlen + (ws.getD n []).length + 1) (sel.set n true)
      · rw [List.length_set]
        exact hlen
      · rw [selSum_set_true sel ws n (hlen ▸ hn) hlen hf, hsum]
        omega
      · omega
      · intro m hm
        refine ⟨(hmem m (List.mem_cons_of_mem _ hm)).1, ?_⟩
        have hne : n ≠ m := by
          intro he
          subst he
          exact (List.nodup_cons.mp hnd).1 hm
        rw [List.getD_eq_getElem?_getD, List.getElem?_set_ne hne,
          ← List.getD_eq_getElem?_getD]
        exact (hmem m (List.mem_cons_of_mem _ hm)).2
      · exact (List.nodup_cons.mp hnd).2

/-- **C6, counterexample.**  With `maxlen = 0` (and one token) the very
first considered position already crosses the budget (`charlen >= maxlen`),
nothing is selected, and the selected-character total is `0`, which is NOT
strictly less than `maxlen = 0`: the claim's "always strictly less than
maxlen" fails at `maxlen = 0`. -/
theorem budget_not_strict_at_zero :
    makeSample id "a".data [] 0 "<b>".data "</b>".data = .ok [] ∧
    makeSelection ["a".data] [0] 0 = [false] ∧
    selSum (makeSelection ["a".data] [0] 0) ["a".data] = 0 ∧
    ¬ selSum (makeSelection ["a".data] [0] 0) ["a".data] < 0 :=
  ⟨rfl, rfl, rfl, by omega⟩

/-- **C6, amended.**  The position that makes the counter reach or exceed
`maxlen` is not selected and selection stops entirely; consequently, for
every `maxlen ≥ 1` the sum of `len(chunk) + 1` over the selected positions
is strictly less than `maxlen` (for `maxlen = 0` nothing is selected and
the sum equals `0 = maxlen`). -/
theorem budget_strictly_under_maxlen (words : List (List Char))
    (scores : List Nat) (maxlen : Nat)
    (hlen : scores.length = words.length) (hm : 1 ≤ maxlen) :
    selSum (makeSelection words scores maxlen) words < maxlen := by
  unfold makeSelection
  apply selectLoop_sum
  · exact List.length_replicate _ _
  · exact selSum_replicate words
  · omega
  · intro n hn
    refine ⟨?_, getD_replicate_false _ _⟩
    have := (selOrder_mem scores n).mp hn
    omega
  · exact selOrder_nodup scores

/-- Witness for the amended C6 theorem at a concrete input. -/
theorem budget_strictly_under_maxlen_witness :
    selSum (makeSelection ["a".data] [0] 3) ["a".data] < 3 :=
  budget_strictly_under_maxlen ["a".data] [0] 3 rfl (by omega)

/-- **C7.**  The selector's consideration order is strictly descending in
score value and, within one score value, ascending in original position;
every position of the score vector is considered exactly once
(`selOrder_nodup` above); and in a concrete tight-budget scenario with two
equal-score tokens, the earlier-positioned token is the one selected. -/
theorem selector_order_and_tiebreak :
    (∀ sc : List Nat, (selOrder sc).Pairwise (fun a b =>
        sc.getD b 0 < sc.getD a 0 ∨ (sc.getD a 0 = sc.getD b 0 ∧ a < b))) ∧
    (∀ (sc : List Nat) (n : Nat), n ∈ selOrder sc ↔ n < sc.length) ∧
    makeSelection ["a ".data, "b".data] [5, 5] 4 = [true, false] :=
  ⟨selOrder_pairwise, selOrder_mem, rfl⟩

/-- **C9.**  In `makeSample` always, and in `highlight` with
`no_tags = True`, every chunk whose first character is `<` is removed from
the token sequence — including punctuation chunks that merely begin with
`<` and are not well-formed tags: the tokenizer produces the chunk `"< "`
for `"a < b"`, the filtered sequences never contain a chunk starting with
`<`, and `highlight` reconstructs `"a b"` without it. -/
theorem tag_chunks_filtered :
    (∀ (text : List Char) (w : List Char), w ∈ sampleWords text →
      w.head? ≠ some '<') ∧
    (∀ (text : List Char) (w : List Char), w ∈ highlightTokens text true →
      w.head? ≠ some '<') ∧
    "< ".data ∈ chunkFindall "a < b".data ∧
    highlight id "a < b".data [] "<b>".data "</b>".data true = .ok "a b".data := by
  refine ⟨?_, ?_, by decide, rfl⟩
  · intro text w hw
    have := (List.mem_filter.mp hw).2
    simpa using this
  · intro text w hw
    simp only [highlightTokens, if_true] at hw
    have := (List.mem_filter.mp hw).2
    simpa using this

/-- Witness for C9 at a concrete input: the chunk `"a "` of `"a < b"`
survives the filter, so it does not start with `<`. -/
theorem tag_chunks_filtered_witness :
    ("a ".data : List Char).head? ≠ some '<' :=
  tag_chunks_filtered.1 "a < b".data "a ".data (by decide)

/-! ### Marking-phase safety lemmas (claim C10) -/

theorem addScore_isOk {sc : List Nat} {i : Nat} (v : Nat) (h : i < sc.length) :
    ∃ sc', addScore sc i v = .ok sc' := by
  unfold addScore
  rw [List.getElem?_eq_getElem h]
  exact ⟨_, rfl⟩

theorem addScore_length {sc sc' : List Nat} {i v : Nat}
    (h : addScore sc i v = .ok sc') : sc'.length = sc.length := by
  unfold addScore at h
  cases hg : sc[i]? with
  | none => rw [hg] at h; simp at h
  | some x =>
    rw [hg] at h
    simp only [Except.ok.injEq] at h
    subst h
    exact List.length_set _ _ _

theorem setFlag_isOk {hl : List Bool} {i : Nat} (h : i < hl.length) :
    ∃ hl', setFlag hl i = .ok hl' := by
  unfold setFlag
  rw [List.getElem?_eq_getElem h]
  exact ⟨_, rfl⟩

theorem setFlag_length {hl hl' : List Bool} {i : Nat}
    (h : setFlag hl i = .ok hl') : hl'.length = hl.length := by
  unfold setFlag at h
  cases hg : hl[i]? with
  | none => rw [hg] at h; simp at h
  | some x =>
    rw [hg] at h
    simp only [Except.ok.injEq] at h
    subst h
    exact List.length_set _ _ _

/-- The score loop never writes out of bounds: if the whole specification
fits before the end of the arrays, every `scores[n+offset] += WINDOW` and
`highlight[n+offset] = True` succeeds and the array lengths are kept. -/
theorem scoreUnits_ok :
    ∀ (q : List MatchUnit) (st : MarkState) (n offset : Nat),
      n + offset + q.length ≤ st.scores.length →
      st.highlight.length = st.scores.length →
      ∃ st', scoreUnits st n offset q = (st', .ok ()) ∧
        st'.scores.length = st.scores.length ∧
        st'.highlight.length = st.highlight.length := by
  intro q
  induction q with
  | nil =>
    intro st n offset _ _
    exact ⟨st, rfl, rfl, rfl⟩
  | cons u rest ih =>
    intro st n offset hfit hlen
    obtain ⟨sc', hsc⟩ := @addScore_isOk st.scores (n + offset)
      WINDOW (by simp at hfit ⊢; omega)
    obtain ⟨hl', hhl⟩ := @setFlag_isOk st.highlight (n + offset)
      (by rw [hlen]; simp at hfit ⊢; omega)
    have hsc_len := addScore_length hsc
    have hhl_len := setFlag_length hhl
    obtain ⟨st', hrec, hrs, hrh⟩ := ih { scores := sc', highlight := hl' } n
      (offset + 1) (by simp at hfit ⊢; omega) (by simp [hsc_len, hhl_len, hlen])
    refine ⟨st', ?_, ?_, ?_⟩
    · simp only [scoreUnits, hsc, hhl]
      exact hrec
    · simp at hrs
      omega
    · simp at hrh
      omega

/-- The left taper never writes out of bounds: it breaks before index `-1`
(modelled by `n < w`), and every written index `n - w` stays below `n`. -/
theorem leftTaper_ok :
    ∀ (ws : List Nat) (sc : List Nat) (n : Nat),
      n < sc.length → (∀ w ∈ ws, 1 ≤ w) →
      ∃ sc', leftTaper sc n ws = (sc', .ok ()) ∧ sc'.length = sc.length := by
  intro ws
  induction ws with
  | nil =>
    intro sc n _ _
    exact ⟨sc, rfl, rfl⟩
  | cons w ws' ih =>
    intro sc n hn hws
    by_cases hb : n < w
    · exact ⟨sc, by simp [leftTaper, hb], rfl⟩
    · obtain ⟨sc', hsc⟩ := @addScore_isOk sc (n - w)
        (WINDOW - w) (by omega)
      have hlen := addScore_length hsc
      obtain ⟨sc'', hrec, hlen2⟩ := ih sc' n (by omega)
        (fun x hx => hws x (List.mem_cons_of_mem _ hx))
      refine ⟨sc'', ?_, by omega⟩
      simp only [leftTaper, if_neg hb, hsc]
      exact hrec

/-- The right taper never writes out of bounds: over the consecutive taper
range it stops exactly when `r` reaches `lenwords`. -/
theorem rightTaper_ok :
    ∀ (k w : Nat) (sc : List Nat) (n offset : Nat),
      n + offset + w ≤ sc.length →
      ∃ sc', rightTaper sc sc.length n offset (List.range' w k) = (sc', .ok ()) ∧
        sc'.length = sc.length := by
  intro k
  induction k with
  | zero =>
    intro w sc n offset _
    exact ⟨sc, rfl, rfl⟩
  | succ k ih =>
    intro w sc n offset hfit
    rw [List.range'_succ]
    by_cases hb : n + offset + w = sc.length
    · exact ⟨sc, by simp [rightTaper, hb], rfl⟩
    · obtain ⟨sc', hsc⟩ := @addScore_isOk sc (n + offset + w)
        (WINDOW - w) (by omega)
      have hlen := addScore_length hsc
      obtain ⟨sc'', hrec, hlen2⟩ := ih (w + 1) sc' n offset (by omega)
      refine ⟨sc'', ?_, by omega⟩
      simp only [rightTaper, if_neg hb, hsc]
      rw [← hlen]
      exact hrec

/-- On a successful match the whole `try` body succeeds: every write of the
score loop and of both tapers is within bounds. -/
theorem trySpecSample_ok (terms : List (List Char)) (st : MarkState) (n : Nat)
    (q : List MatchUnit) (hq : q ≠ [])
    (hsc : st.scores.length = terms.length)
    (hhl : st.highlight.length = terms.length)
    (hm : matchLoop terms n q = .ok ()) :
    ∃ st', trySpecSample terms st n q = (st', .ok ()) ∧
      st'.scores.length = terms.length ∧
      st'.highlight.length = terms.length := by
  have hq1 : 1 ≤ q.length := List.length_pos.mpr hq
  have hfit : n + q.length ≤ terms.length := by
    obtain ⟨t, hg, -⟩ :=
      (matchLoop_ok_iff terms q n).mp hm (q.length - 1) (by omega)
    have := (List.getElem?_eq_some_iff.mp hg).1
    omega
  obtain ⟨st1, hsu, hs1, hh1⟩ := scoreUnits_ok q st n 0 (by omega) (by omega)
  obtain ⟨sc2, hlt, hl2⟩ := leftTaper_ok taperRange st1.scores n (by omega)
    (fun w hw => (List.mem_range'_1.mp hw).1)
  obtain ⟨sc3, hrt, hl3⟩ := rightTaper_ok (WINDOW - 1) 1 sc2 n (q.length - 1)
    (by omega)
  refine ⟨{ st1 with scores := sc3 }, ?_, by simp; omega, by simp; omega⟩
  have hceq : terms.length = sc2.length := by omega
  have hrt' : rightTaper sc2 sc2.length n (q.length - 1) taperRange =
      (sc3, .ok ()) := by
    simpa only [taperRange] using hrt
  simp only [trySpecSample, hm, hsu, hlt, hceq, hrt']

/-- A failed match leaves the state untouched and surfaces the exception to
the specification loop. -/
theorem trySpecSample_err (terms : List (List Char)) (st : MarkState) (n : Nat)
    (q : List MatchUnit) (e : PyExc) (h : matchLoop terms n q = .error e) :
    trySpecSample terms st n q = (st, .error e) := by
  simp [trySpecSample, h]

/-- For a query of nonempty literal-only specifications the specification
loop at any position returns normally, preserving the array lengths. -/
theorem sampleSpecLoop_ok :
    ∀ (query : List (List MatchUnit)) (terms : List (List Char))
      (st : MarkState) (n : Nat),
      (∀ q ∈ query, litOnly q = true ∧ q ≠ []) →
      st.scores.length = terms.length →
      st.highlight.length = terms.length →
      ∃ st', sampleSpecLoop terms st n query = .ok st' ∧
        st'.scores.length = terms.length ∧
        st'.highlight.length = terms.length := by
  intro query
  induction query with
  | nil =>
    intro terms st n _ hs hh
    exact ⟨st, rfl, hs, hh⟩
  | cons q rest ih =>
    intro terms st n hq hs hh
    have hql := (hq q (List.mem_cons_self _ _)).1
    have hqn := (hq q (List.mem_cons_self _ _)).2
    rcases matchLoop_litOnly terms q n hql with hok | herr
    · obtain ⟨st', htry, hs', hh'⟩ := trySpecSample_ok terms st n q hqn hs hh hok
      exact ⟨st', by simp only [sampleSpecLoop, htry], hs', hh'⟩
    · have htry := trySpecSample_err terms st n q .indexError herr
      obtain ⟨st', hrec, hs', hh'⟩ :=
        ih terms st n (fun p hp => hq p (List.mem_cons_of_mem _ hp)) hs hh
      refine ⟨st', ?_, hs', hh'⟩
      simp only [sampleSpecLoop, htry]
      exact hrec

/-- For a query of nonempty literal-only specifications the whole position
loop returns normally. -/
theorem samplePosLoop_ok :
    ∀ (ns : List Nat) (terms : List (List Char))
      (query : List (List MatchUnit)) (st : MarkState),
      (∀ q ∈ query, litOnly q = true ∧ q ≠ []) →
      st.scores.length = terms.length →
      st.highlight.length = terms.length →
      ∃ st', samplePosLoop terms query st ns = .ok st' ∧
        st'.scores.length = terms.length ∧
        st'.highlight.length = terms.length := by
  intro ns
  induction ns with
  | nil =>
    intro terms query st _ hs hh
    exact ⟨st, rfl, hs, hh⟩
  | cons n ns' ih =>
    intro terms query st hq hs hh
    obtain ⟨st1, hloop, hs1, hh1⟩ := sampleSpecLoop_ok query terms st n hq hs hh
    obtain ⟨st', hrec, hs', hh'⟩ := ih terms query st1 hq hs1 hh1
    refine ⟨st', ?_, hs', hh'⟩
    simp only [samplePosLoop, hloop]
    exact hrec

/-- Unfolding equation for `makeSample`. -/
theorem makeSample_eq (stem : List Char → List Char) (text : List Char)
    (query : List (List MatchUnit)) (maxlen : Nat) (hl0 hl1 : List Char) :
    makeSample stem text query maxlen hl0 hl1 =
      if (sampleWords text).length = 0 then .ok text
      else
        match markSample ((sampleWords text).map (normaliseText stem)) query with
        | .error e => .error e
        | .ok st => .ok (buildSample hl0 hl1 (sampleWords text)
            (makeSelection (sampleWords text) st.scores maxlen)
            st.highlight false) := rfl

/-- **C10.**  (1) On a successful match at `n`, every write of the scoring
pass is within bounds: the score loop writes at the verified offsets, the
left taper breaks before index `-1`, and the right taper breaks on reaching
`lenwords`, so the `try` body returns normally with both arrays' lengths
unchanged.  (2) Consequently, for queries of nonempty literal-only
specifications, `makeSample` as a whole never raises: it returns a sample
for every text and budget. -/
theorem marking_phase_writes_in_bounds :
    (∀ (terms : List (List Char)) (st : MarkState) (n : Nat)
        (q : List MatchUnit),
        q ≠ [] → st.scores.length = terms.length →
        st.highlight.length = terms.length →
        matchLoop terms n q = .ok () →
        ∃ st', trySpecSample terms st n q = (st', .ok ()) ∧
          st'.scores.length = terms.length ∧
          st'.highlight.length = terms.length) ∧
    (∀ (stem : List Char → List Char) (text : List Char)
        (query : List (List MatchUnit)) (maxlen : Nat) (hl0 hl1 : List Char),
        (∀ q ∈ query, litOnly q = true ∧ q ≠ []) →
        ∃ out, makeSample stem text query maxlen hl0 hl1 = .ok out) := by
  constructor
  · intro terms st n q hq hs hh hm
    exact trySpecSample_ok terms st n q hq hs hh hm
  · intro stem text query maxlen hl0 hl1 hq
    rw [makeSample_eq]
    by_cases hz : (sampleWords text).length = 0
    · rw [if_pos hz]
      exact ⟨text, rfl⟩
    · rw [if_neg hz]
      obtain ⟨st', hmark, -, -⟩ := samplePosLoop_ok
        (List.range ((sampleWords text).map (normaliseText stem)).length)
        ((sampleWords text).map (normaliseText stem)) query
        { scores := List.replicate
            ((sampleWords text).map (normaliseText stem)).length 0,
          highlight := List.replicate
            ((sampleWords text).map (normaliseText stem)).length false }
        hq (by simp) (by simp)
      have hms : markSample ((sampleWords text).map (normaliseText stem)) query =
          .ok st' := hmark
      rw [hms]
      exact ⟨_, rfl⟩

/-- Witness for C10 at a concrete input: `makeSample` on `"a b"` with the
literal query `[["b"]]` returns normally. -/
theorem marking_phase_writes_in_bounds_witness :
    ∃ out, makeSample id "a b".data [[.lit "b".data]] 100
      "<b>".data "</b>".data = .ok out :=
  marking_phase_writes_in_bounds.2 id "a b".data [[.lit "b".data]] 100
    "<b>".data "</b>".data (by
      intro q hq
      simp only [List.mem_singleton] at hq
      subst hq
      exact ⟨rfl, by simp⟩)

end Highlighter
